import Mathlib

/-
Verification of the base2048 codec against its design description.

The codec turns an octet sequence into a string of code points drawn from a
2048-entry main table and an 8-entry tail table (11 bits per main code point,
3 bits per tail code point), padding a short final group with 1-valued bits,
and inverts this exactly on decode by stripping the last (bit length mod 8)
bits of the reconstructed stream.
-/

namespace Base2048

/-- Modelled from the spec: a bit string read MSB-first as an unsigned integer
(the value of a Group, src missing src/index.js). -/
def bitsToNat : List Bool → Nat
  | [] => 0
  | b :: bs => (if b then 1 else 0) * 2 ^ bs.length + bitsToNat bs

/-- Modelled from the spec: the low-order `w` bits of `v`, MSB first
(the bit representation of a group value, src missing src/index.js). -/
def natToBits : Nat → Nat → List Bool
  | 0, _ => []
  | w + 1, v => decide (v / 2 ^ w % 2 = 1) :: natToBits w v

/-- Modelled from the spec: an octet sequence as one contiguous bit string,
each octet's bits MSB first, octets in order (src missing src/index.js). -/
def bytesToBits : List Nat → List Bool
  | [] => []
  | x :: xs => natToBits 8 x ++ bytesToBits xs

/-- Dices a bit string into consecutive 8-bit octets; `fuel` counts the octets. -/
def bitsToBytesAux : Nat → List Bool → List Nat
  | 0, _ => []
  | fuel + 1, bits => bitsToNat (bits.take 8) :: bitsToBytesAux fuel (bits.drop 8)

/-- Modelled from the spec: dice a bit string into consecutive 8-bit values
(decode step 4, src missing src/index.js). -/
def bitsToBytes (bits : List Bool) : List Nat :=
  bitsToBytesAux (bits.length / 8) bits

theorem length_natToBits (w v : Nat) : (natToBits w v).length = w := by
  induction w generalizing v with
  | zero => rfl
  | succ w ih => simp [natToBits, ih]

theorem natToBits_add_mul_pow (w a m : Nat) :
    natToBits w (m + a * 2 ^ w) = natToBits w m := by
  induction w generalizing a m with
  | zero => rfl
  | succ w ih =>
    have hpos : 0 < 2 ^ w := Nat.two_pow_pos w
    have hrw : m + a * 2 ^ (w + 1) = m + 2 * a * 2 ^ w := by ring
    simp only [natToBits, hrw]
    congr 1
    · rw [decide_eq_decide, Nat.add_mul_div_right m (2 * a) hpos]
      omega
    · exact ih (2 * a) m

theorem bitsToNat_lt (l : List Bool) : bitsToNat l < 2 ^ l.length := by
  induction l with
  | nil => simp [bitsToNat]
  | cons b bs ih =>
    simp only [bitsToNat, List.length_cons, pow_succ]
    have hble : (if b = true then 1 else 0) * 2 ^ bs.length ≤ 2 ^ bs.length := by
      cases b <;> simp
    omega

theorem natToBits_bitsToNat (l : List Bool) :
    natToBits l.length (bitsToNat l) = l := by
  induction l with
  | nil => rfl
  | cons b bs ih =>
    have hlt := bitsToNat_lt bs
    have hpos : 0 < 2 ^ bs.length := Nat.two_pow_pos bs.length
    simp only [List.length_cons, natToBits, bitsToNat]
    congr 1
    · cases b
      · simp [Nat.div_eq_of_lt hlt]
      · have h1 : (2 ^ bs.length + bitsToNat bs) / 2 ^ bs.length = 1 := by
          rw [Nat.add_comm, Nat.add_div_right _ hpos, Nat.div_eq_of_lt hlt]
        simp [h1]
    · have hrw : (if b = true then 1 else 0) * 2 ^ bs.length + bitsToNat bs
          = bitsToNat bs + (if b = true then 1 else 0) * 2 ^ bs.length := by ring
      rw [hrw, natToBits_add_mul_pow, ih]

theorem bitsToNat_natToBits (w v : Nat) : bitsToNat (natToBits w v) = v % 2 ^ w := by
  induction w generalizing v with
  | zero => simp [natToBits, bitsToNat, Nat.mod_one]
  | succ w ih =>
    simp only [natToBits, bitsToNat, length_natToBits, ih]
    have h2 : (2 : Nat) ^ (w + 1) = 2 ^ w * 2 := by ring
    rw [h2, Nat.mod_mul]
    rcases Nat.mod_two_eq_zero_or_one (v / 2 ^ w) with h | h <;> simp [h, Nat.add_comm]

theorem length_bytesToBits (b : List Nat) : (bytesToBits b).length = 8 * b.length := by
  induction b with
  | nil => rfl
  | cons x xs ih => simp [bytesToBits, length_natToBits, ih]; ring

theorem bitsToBytes_bytesToBits (b : List Nat) (h : ∀ x ∈ b, x < 256) :
    bitsToBytes (bytesToBits b) = b := by
  suffices haux : ∀ (bs : List Nat), (∀ x ∈ bs, x < 256) →
      bitsToBytesAux bs.length (bytesToBits bs) = bs by
    have hlen : (bytesToBits b).length / 8 = b.length := by
      rw [length_bytesToBits]; omega
    rw [bitsToBytes, hlen, haux b h]
  intro bs
  induction bs with
  | nil => intro _; rfl
  | cons x xs ih =>
    intro hb
    have hx : x < 256 := hb x (by simp)
    have hlen8 : (natToBits 8 x).length = 8 := length_natToBits 8 x
    simp only [bytesToBits, List.length_cons, bitsToBytesAux]
    have htake : (natToBits 8 x ++ bytesToBits xs).take 8 = natToBits 8 x :=
      List.take_left' hlen8
    have hdrop : (natToBits 8 x ++ bytesToBits xs).drop 8 = bytesToBits xs :=
      List.drop_left' hlen8
    rw [htake, hdrop, bitsToNat_natToBits, Nat.mod_eq_of_lt (by norm_num [hx]),
      ih (fun y hy => hb y (by simp [hy]))]

/-- Modelled from the spec: a Group is a fixed-width slice of the bit stream,
either 11 bits (main repertoire) or 3 bits (tail repertoire); the concrete
encoder source src/index.js is missing, so the tagged choice follows §3/§9. -/
inductive BitGroup where
  | main (v : Nat) : BitGroup
  | tail (v : Nat) : BitGroup
deriving DecidableEq

/-- The bit representation a decoder reconstructs from one group: the low-order
`width` bits of its value, MSB first (11 for main, 3 for tail). -/
def groupBits : BitGroup → List Bool
  | .main v => natToBits 11 v
  | .tail v => natToBits 3 v

/-- Concatenated bit representation of a sequence of groups. -/
def groupsToBits : List BitGroup → List Bool
  | [] => []
  | g :: gs => groupBits g ++ groupsToBits gs

/-- Whether a group is drawn from the 8-entry tail repertoire. -/
def isTail : BitGroup → Bool
  | .main _ => false
  | .tail _ => true

/-- Pads a bit string out to `w` bits by appending 1-valued bits after the real
bits, i.e. as the low-order bits. -/
def padTo (w : Nat) (bits : List Bool) : List Bool :=
  bits ++ List.replicate (w - bits.length) true

/-- Modelled from the spec: handling of the final, possibly incomplete group
(§4.2 cases 3/4/5; src/index.js missing). Zero leftover bits produce no group;
1 to 3 leftover bits are padded to 3 bits and tagged tail; 4 to 10 leftover
bits are padded to 11 bits and tagged main. -/
def finalGroups (bits : List Bool) : List BitGroup :=
  if bits.length = 0 then []
  else if bits.length ≤ 3 then [.tail (bitsToNat (padTo 3 bits))]
  else [.main (bitsToNat (padTo 11 bits))]

/-- Slices the bit stream left to right into full 11-bit main groups, handing
the short leftover to `finalGroups`; `fuel` counts the full groups. -/
def encodeGroupsAux : Nat → List Bool → List BitGroup
  | 0, bits => finalGroups bits
  | fuel + 1, bits =>
    if 11 ≤ bits.length then
      .main (bitsToNat (bits.take 11)) :: encodeGroupsAux fuel (bits.drop 11)
    else finalGroups bits

/-- Modelled from the spec: slice the bit stream into consecutive 11-bit groups
with the dual-width final-group policy of §4.2 (src/index.js missing). -/
def encodeGroups (bits : List Bool) : List BitGroup :=
  encodeGroupsAux (bits.length / 11) bits

/-- Modelled from the spec: the Repertoire Table of §4.3 (supplied as injected
configuration; its concrete contents are generated data outside src/): a
2048-entry main mapping and an 8-entry tail mapping with their reverse maps,
left-inverse on their domains and pairwise disjoint across the two tables. -/
structure Repertoire where
  mainCodePoint : Nat → Nat
  tailCodePoint : Nat → Nat
  mainIndex : Nat → Option Nat
  tailIndex : Nat → Option Nat
  main_left : ∀ i, i < 2048 → mainIndex (mainCodePoint i) = some i
  tail_left : ∀ i, i < 8 → tailIndex (tailCodePoint i) = some i
  disjoint_mt : ∀ i, i < 2048 → tailIndex (mainCodePoint i) = none
  disjoint_tm : ∀ i, i < 8 → mainIndex (tailCodePoint i) = none

/-- The code point a group is emitted as: main groups are looked up in the main
table, tail groups in the tail table. -/
def groupCodePoint (R : Repertoire) : BitGroup → Nat
  | .main v => R.mainCodePoint v
  | .tail v => R.tailCodePoint v

/-- Modelled from the spec: `encode` (§4.2; src/index.js missing). Slices the
input octets' bit stream into groups and looks each group up in its table; the
output string is the sequence of code points. -/
def encode (R : Repertoire) (bytes : List Nat) : List Nat :=
  (encodeGroups (bytesToBits bytes)).map (groupCodePoint R)

/-- Modelled from the spec: the two decode error kinds of §7
(src/index.js missing). -/
inductive DecodeError where
  | InvalidCharacter : DecodeError
  | MalformedInput : DecodeError
deriving DecidableEq

/-- Modelled from the spec: decode steps 1 and 2 (§4.4; src/index.js missing):
resolve each code point through the reverse maps (11 bits from main, 3 from
tail, `InvalidCharacter` when neither) and concatenate the resolved bits. -/
def decodeChars (R : Repertoire) : List Nat → Except DecodeError (List Bool)
  | [] => .ok []
  | c :: rest =>
    match R.mainIndex c with
    | some i =>
      match decodeChars R rest with
      | .ok bs => .ok (natToBits 11 i ++ bs)
      | .error e => .error e
    | none =>
      match R.tailIndex c with
      | some i =>
        match decodeChars R rest with
        | .ok bs => .ok (natToBits 3 i ++ bs)
        | .error e => .error e
      | none => .error .InvalidCharacter

/-- Modelled from the spec: `decode` (§4.4; src/index.js missing): reconstruct
the bit stream of length L, remove exactly the last L mod 8 bits, require the
remainder to be a multiple of 8 (`MalformedInput` otherwise), and dice it into
octets. -/
def decode (R : Repertoire) (s : List Nat) : Except DecodeError (List Nat) :=
  match decodeChars R s with
  | .error e => .error e
  | .ok bits =>
    let L := bits.length
    let r := L % 8
    let stripped := bits.take (L - r)
    if stripped.length % 8 = 0 then .ok (bitsToBytes stripped)
    else .error .MalformedInput

/-- The number of 1-valued padding bits the encoder appends for a leftover of
`p` bits (p = bit length mod 11). -/
def padOf (p : Nat) : Nat :=
  if p = 0 then 0 else if p ≤ 3 then 3 - p else 11 - p

/-- A group whose value fits its table: 11 bits for main, 3 bits for tail. -/
def goodGroup : BitGroup → Prop
  | .main v => v < 2048
  | .tail v => v < 8

theorem length_padTo (w : Nat) (bits : List Bool) (h : bits.length ≤ w) :
    (padTo w bits).length = w := by
  simp [padTo]
  omega

theorem natToBits_bitsToNat_of_length (w : Nat) (l : List Bool) (h : l.length = w) :
    natToBits w (bitsToNat l) = l := by
  subst h
  exact natToBits_bitsToNat l

theorem finalGroups_good (bits : List Bool) (h : bits.length ≤ 10) :
    ∀ g ∈ finalGroups bits, goodGroup g := by
  intro g hg
  unfold finalGroups at hg
  by_cases h0 : bits.length = 0
  · rw [if_pos h0] at hg
    simp at hg
  · rw [if_neg h0] at hg
    by_cases h3 : bits.length ≤ 3
    · rw [if_pos h3] at hg
      simp at hg
      subst hg
      have := bitsToNat_lt (padTo 3 bits)
      rw [length_padTo 3 bits h3] at this
      exact this
    · rw [if_neg h3] at hg
      simp at hg
      subst hg
      have := bitsToNat_lt (padTo 11 bits)
      rw [length_padTo 11 bits (by omega)] at this
      exact this

theorem encodeGroupsAux_good (fuel : Nat) (bits : List Bool)
    (hfuel : bits.length ≤ 11 * fuel + 10) :
    ∀ g ∈ encodeGroupsAux fuel bits, goodGroup g := by
  induction fuel generalizing bits with
  | zero => exact finalGroups_good bits (by omega)
  | succ fuel ih =>
    intro g hg
    unfold encodeGroupsAux at hg
    by_cases h11 : 11 ≤ bits.length
    · rw [if_pos h11] at hg
      rcases List.mem_cons.mp hg with hgm | hgm
      · subst hgm
        have := bitsToNat_lt (bits.take 11)
        have hl : (bits.take 11).length = 11 := by simp; omega
        rw [hl] at this
        exact this
      · exact ih (bits.drop 11) (by simp; omega) g hgm
    · rw [if_neg h11] at hg
      exact finalGroups_good bits (by omega) g hg

theorem decodeChars_map_groupCodePoint (R : Repertoire) (gs : List BitGroup)
    (h : ∀ g ∈ gs, goodGroup g) :
    decodeChars R (gs.map (groupCodePoint R)) = .ok (groupsToBits gs) := by
  induction gs with
  | nil => rfl
  | cons g gs ih =>
    have hrest := ih (fun g hgm => h g (by simp [hgm]))
    cases g with
    | main v =>
      have hv : v < 2048 := h (.main v) (by simp)
      simp only [List.map_cons, groupCodePoint, decodeChars]
      rw [R.main_left v hv, hrest]
      rfl
    | tail v =>
      have hv : v < 8 := h (.tail v) (by simp)
      simp only [List.map_cons, groupCodePoint, decodeChars]
      rw [R.disjoint_tm v hv, R.tail_left v hv, hrest]
      rfl

theorem groupsToBits_encodeGroupsAux (fuel : Nat) (bits : List Bool)
    (hfuel : fuel = bits.length / 11) :
    groupsToBits (encodeGroupsAux fuel bits)
      = bits ++ List.replicate (padOf (bits.length % 11)) true := by
  induction fuel generalizing bits with
  | zero =>
    have hlen : bits.length ≤ 10 := by omega
    have hmod : bits.length % 11 = bits.length := Nat.mod_eq_of_lt (by omega)
    show groupsToBits (finalGroups bits) = _
    by_cases h0 : bits.length = 0
    · have hnil : bits = [] := List.length_eq_zero.mp h0
      subst hnil
      rfl
    · by_cases h3 : bits.length ≤ 3
      · have hl : (padTo 3 bits).length = 3 := length_padTo 3 bits h3
        simp only [finalGroups, if_neg h0, if_pos h3, groupsToBits, groupBits,
          List.append_nil]
        rw [natToBits_bitsToNat_of_length 3 (padTo 3 bits) hl]
        simp only [padTo, hmod, padOf, if_neg h0, if_pos h3]
      · have hl : (padTo 11 bits).length = 11 := length_padTo 11 bits (by omega)
        simp only [finalGroups, if_neg h0, if_neg h3, groupsToBits, groupBits,
          List.append_nil]
        rw [natToBits_bitsToNat_of_length 11 (padTo 11 bits) hl]
        simp only [padTo, hmod, padOf, if_neg h0, if_neg h3]
  | succ fuel ih =>
    have h11 : 11 ≤ bits.length := by omega
    have htl : (bits.take 11).length = 11 := by simp; omega
    simp only [encodeGroupsAux, if_pos h11, groupsToBits, groupBits]
    rw [natToBits_bitsToNat_of_length 11 (bits.take 11) htl]
    rw [ih (bits.drop 11) (by simp; omega)]
    rw [← List.append_assoc, List.take_append_drop]
    have hmodeq : (bits.drop 11).length % 11 = bits.length % 11 := by simp; omega
    rw [hmodeq]

theorem encodeGroupsAux_unroll (fuel : Nat) (bits : List Bool)
    (hfuel : fuel = bits.length / 11) :
    encodeGroupsAux fuel bits
      = (List.range fuel).map
          (fun k => BitGroup.main (bitsToNat ((bits.drop (11 * k)).take 11)))
        ++ finalGroups (bits.drop (11 * fuel)) := by
  induction fuel generalizing bits with
  | zero => simp [encodeGroupsAux]
  | succ fuel ih =>
    have h11 : 11 ≤ bits.length := by omega
    simp only [encodeGroupsAux, if_pos h11]
    rw [ih (bits.drop 11) (by simp; omega)]
    rw [List.range_succ_eq_map, List.map_cons, List.map_map]
    simp only [Nat.mul_zero, List.drop_zero, List.cons_append]
    congr 1
    congr 1
    · apply List.map_congr_left
      intro k _
      simp only [Function.comp_apply]
      have hidx : 11 + 11 * k = 11 * Nat.succ k := by omega
      rw [List.drop_drop, hidx]
    · have hidx : 11 + 11 * fuel = 11 * (fuel + 1) := by omega
      rw [List.drop_drop, hidx]

/-- The bit width decode assigns to a code point: 11 when it resolves in the
main table, 3 when it resolves in the tail table, 0 when it resolves in
neither (decode then fails before any width is used). -/
def cpWidth (R : Repertoire) (c : Nat) : Nat :=
  match R.mainIndex c with
  | some _ => 11
  | none =>
    match R.tailIndex c with
    | some _ => 3
    | none => 0

/-- Total reconstructed bit length of a string: 11 bits per main-table code
point plus 3 bits per tail-table code point. -/
def strWidth (R : Repertoire) (s : List Nat) : Nat :=
  (s.map (cpWidth R)).sum

theorem cpWidth_groupCodePoint (R : Repertoire) (g : BitGroup) (h : goodGroup g) :
    cpWidth R (groupCodePoint R g) = (groupBits g).length := by
  cases g with
  | main v =>
    have hv : v < 2048 := h
    simp only [groupCodePoint, cpWidth, R.main_left v hv, groupBits, length_natToBits]
  | tail v =>
    have hv : v < 8 := h
    simp only [groupCodePoint, cpWidth, R.disjoint_tm v hv, R.tail_left v hv,
      groupBits, length_natToBits]

theorem strWidth_map_groupCodePoint (R : Repertoire) (gs : List BitGroup)
    (h : ∀ g ∈ gs, goodGroup g) :
    strWidth R (gs.map (groupCodePoint R)) = (groupsToBits gs).length := by
  induction gs with
  | nil => rfl
  | cons g gs ih =>
    have hhead := cpWidth_groupCodePoint R g (h g (by simp))
    have htail := ih (fun g hg => h g (by simp [hg]))
    simp only [strWidth, List.map_cons, List.sum_cons, groupsToBits,
      List.length_append] at *
    rw [hhead, htail]

theorem padOf_le_seven (p : Nat) : padOf p ≤ 7 := by
  unfold padOf
  split
  · omega
  · split <;> omega

theorem encodeGroups_good (bits : List Bool) :
    ∀ g ∈ encodeGroups bits, goodGroup g :=
  encodeGroupsAux_good (bits.length / 11) bits (by omega)

theorem decodeChars_encode (R : Repertoire) (b : List Nat) :
    decodeChars R (encode R b)
      = .ok (bytesToBits b ++ List.replicate (padOf (8 * b.length % 11)) true) := by
  unfold encode
  rw [decodeChars_map_groupCodePoint R _ (encodeGroups_good _)]
  unfold encodeGroups
  rw [groupsToBits_encodeGroupsAux _ _ rfl, length_bytesToBits]

theorem decode_encode (R : Repertoire) (b : List Nat) (h : ∀ x ∈ b, x < 256) :
    decode R (encode R b) = .ok b := by
  have hchars := decodeChars_encode R b
  have hple : padOf (8 * b.length % 11) ≤ 7 := padOf_le_seven _
  have hlenb : (bytesToBits b).length = 8 * b.length := length_bytesToBits b
  have hlen : (bytesToBits b ++ List.replicate (padOf (8 * b.length % 11)) true).length
      = 8 * b.length + padOf (8 * b.length % 11) := by simp [hlenb]
  unfold decode
  rw [hchars]
  have hsub : (bytesToBits b ++ List.replicate (padOf (8 * b.length % 11)) true).length
        - (bytesToBits b ++ List.replicate (padOf (8 * b.length % 11)) true).length % 8
      = 8 * b.length := by omega
  have htake : (bytesToBits b ++ List.replicate (padOf (8 * b.length % 11)) true).take
      (8 * b.length) = bytesToBits b := List.take_left' hlenb
  simp only [hsub, htake, hlenb]
  rw [if_pos (by omega), bitsToBytes_bytesToBits b h]

theorem decodeChars_error_invalid (R : Repertoire) (s : List Nat) (e : DecodeError)
    (h : decodeChars R s = .error e) : e = .InvalidCharacter := by
  induction s with
  | nil => simp [decodeChars] at h
  | cons a rest ih =>
    rw [decodeChars] at h
    cases hma : R.mainIndex a with
    | some i =>
      rw [hma] at h
      cases hr : decodeChars R rest with
      | ok bs => rw [hr] at h; simp at h
      | error e2 => rw [hr] at h; simp at h; subst h; exact ih hr
    | none =>
      rw [hma] at h
      cases hta : R.tailIndex a with
      | some i =>
        rw [hta] at h
        cases hr : decodeChars R rest with
        | ok bs => rw [hr] at h; simp at h
        | error e2 => rw [hr] at h; simp at h; subst h; exact ih hr
      | none =>
        rw [hta] at h
        simp only [Except.error.injEq] at h
        exact h.symm

/-- A concrete repertoire satisfying the table invariants, used to run the
codec on concrete inputs: main index i maps to code point i, tail index i to
code point 2048 + i. -/
def sampleRep : Repertoire where
  mainCodePoint := fun i => i
  tailCodePoint := fun i => 2048 + i
  mainIndex := fun c => if c < 2048 then some c else none
  tailIndex := fun c => if 2048 ≤ c ∧ c < 2056 then some (c - 2048) else none
  main_left := by
    intro i hi
    simp [hi]
  tail_left := by
    intro i hi
    have h1 : 2048 ≤ 2048 + i := by omega
    have h2 : 2048 + i < 2056 := by omega
    simp [h1, h2]
  disjoint_mt := by
    intro i hi
    have hcond : ¬ (2048 ≤ i ∧ i < 2056) := by omega
    simp [hcond]
  disjoint_tm := by
    intro i hi
    have hcond : ¬ (2048 + i < 2048) := by omega
    simp [hcond]

/-- C1: for every byte buffer b, decoding the encoding of b returns exactly b,
for any repertoire satisfying the table invariants: decode is a left inverse
of encode, covering the empty buffer and every length (hence all residues
mod 11 and mod 8). -/
theorem C1_decode_encode_roundtrip (R : Repertoire) (b : List Nat)
    (h : ∀ x ∈ b, x < 256) : decode R (encode R b) = Except.ok b :=
  decode_encode R b h

theorem C1_decode_encode_roundtrip_witness :
    decode sampleRep (encode sampleRep [1, 2, 4, 8, 16, 32, 64, 128])
      = Except.ok [1, 2, 4, 8, 16, 32, 64, 128] :=
  C1_decode_encode_roundtrip sampleRep [1, 2, 4, 8, 16, 32, 64, 128] (by decide)

/-- C2: the bit stream reconstructed from encode(b) is exactly the input bit
stream followed by (L mod 8) 1-valued padding bits, where L is the total
reconstructed bit length (11 bits per main-table code point plus 3 bits per
tail-table code point); hence removing the last L mod 8 bits removes exactly
the padding and nothing else. -/
theorem C2_padding_bits_eq_L_mod_8 (R : Repertoire) (b : List Nat) :
    decodeChars R (encode R b)
      = Except.ok (bytesToBits b
          ++ List.replicate (strWidth R (encode R b) % 8) true) := by
  have hchars := decodeChars_encode R b
  have hw : strWidth R (encode R b)
      = (groupsToBits (encodeGroups (bytesToBits b))).length := by
    unfold encode
    exact strWidth_map_groupCodePoint R _ (encodeGroups_good _)
  have hbits : groupsToBits (encodeGroups (bytesToBits b))
      = bytesToBits b ++ List.replicate (padOf (8 * b.length % 11)) true := by
    unfold encodeGroups
    rw [groupsToBits_encodeGroupsAux _ _ rfl, length_bytesToBits]
  rw [hchars]
  have hmod : strWidth R (encode R b) % 8 = padOf (8 * b.length % 11) := by
    rw [hw, hbits]
    simp only [List.length_append, length_bytesToBits, List.length_replicate]
    have := padOf_le_seven (8 * b.length % 11)
    omega
  rw [hmod]

/-- C9: encode is a total function on byte buffers (it is a Lean function,
defined for every input); the empty buffer encodes to the empty string, and
decode of the empty string succeeds with the empty buffer. -/
theorem C9_total_and_empty (R : Repertoire) :
    encode R [] = [] ∧ decode R [] = Except.ok [] :=
  ⟨rfl, rfl⟩

/-- C10: the trailing (L mod 8) bits of the bit stream reconstructed from
encoder output are all 1-valued, so a decoder may check every discarded
padding bit equals 1 before dropping the incomplete final octet. -/
theorem C10_trailing_padding_all_ones (R : Repertoire) (b : List Nat)
    (bs : List Bool) (h : decodeChars R (encode R b) = Except.ok bs) :
    bs.drop (bs.length - bs.length % 8) = List.replicate (bs.length % 8) true := by
  rw [decodeChars_encode R b] at h
  simp only [Except.ok.injEq] at h
  subst h
  have hple := padOf_le_seven (8 * b.length % 11)
  have hlenb := length_bytesToBits b
  have hlen : (bytesToBits b
        ++ List.replicate (padOf (8 * b.length % 11)) true).length
      = 8 * b.length + padOf (8 * b.length % 11) := by
    simp [hlenb]
  have hmod : (bytesToBits b
        ++ List.replicate (padOf (8 * b.length % 11)) true).length % 8
      = padOf (8 * b.length % 11) := by omega
  rw [hmod, hlen]
  have hsub : 8 * b.length + padOf (8 * b.length % 11) - padOf (8 * b.length % 11)
      = 8 * b.length := by omega
  rw [hsub]
  exact List.drop_left' hlenb

theorem C10_trailing_padding_all_ones_witness :
    ([false, false, false, false, false, false, false, false, true, true,
        true] : List Bool).drop
        (([false, false, false, false, false, false, false, false, true, true,
            true] : List Bool).length
          - ([false, false, false, false, false, false, false, false, true,
              true, true] : List Bool).length % 8)
      = List.replicate
          (([false, false, false, false, false, false, false, false, true,
              true, true] : List Bool).length % 8) true :=
  C10_trailing_padding_all_ones sampleRep [0] _ (by rfl)

theorem length_leftover (b : List Nat) :
    ((bytesToBits b).drop (11 * (8 * b.length / 11))).length = 8 * b.length % 11 := by
  simp [length_bytesToBits]
  omega

theorem encodeGroups_unrolled (b : List Nat) :
    encodeGroups (bytesToBits b)
      = (List.range (8 * b.length / 11)).map
          (fun k => BitGroup.main
            (bitsToNat (((bytesToBits b).drop (11 * k)).take 11)))
        ++ finalGroups ((bytesToBits b).drop (11 * (8 * b.length / 11))) := by
  have hD : (bytesToBits b).length = 8 * b.length := length_bytesToBits b
  unfold encodeGroups
  rw [hD]
  exact encodeGroupsAux_unroll _ _ (by rw [hD])

/-- C3: when the input bit length D has D mod 11 in [4, 10], the encoder
emits D/11 full 11-bit main groups followed by one main-table code point
whose value is the last D mod 11 real bits padded to 11 bits by appending
11 - (D mod 11) 1-valued bits as the low-order bits. -/
theorem C3_main_padded_final_group (R : Repertoire) (b : List Nat)
    (h4 : 4 ≤ 8 * b.length % 11) :
    encode R b
      = (List.range (8 * b.length / 11)).map
          (fun k => R.mainCodePoint
            (bitsToNat (((bytesToBits b).drop (11 * k)).take 11)))
        ++ [R.mainCodePoint
            (bitsToNat ((bytesToBits b).drop (11 * (8 * b.length / 11))
              ++ List.replicate (11 - 8 * b.length % 11) true))] := by
  have hlo := length_leftover b
  unfold encode
  rw [encodeGroups_unrolled b, List.map_append, List.map_map]
  congr 1
  have h0 : ¬ ((bytesToBits b).drop (11 * (8 * b.length / 11))).length = 0 := by
    omega
  have h3 : ¬ ((bytesToBits b).drop (11 * (8 * b.length / 11))).length ≤ 3 := by
    omega
  simp only [finalGroups, padTo, hlo]
  rw [if_neg (show ¬ 8 * b.length % 11 = 0 by omega),
    if_neg (show ¬ 8 * b.length % 11 ≤ 3 by omega)]
  rfl

theorem C3_main_padded_final_group_witness :
    encode sampleRep [0]
      = (List.range (8 * ([0] : List Nat).length / 11)).map
          (fun k => sampleRep.mainCodePoint
            (bitsToNat (((bytesToBits [0]).drop (11 * k)).take 11)))
        ++ [sampleRep.mainCodePoint
            (bitsToNat ((bytesToBits [0]).drop
                (11 * (8 * ([0] : List Nat).length / 11))
              ++ List.replicate (11 - 8 * ([0] : List Nat).length % 11) true))] :=
  C3_main_padded_final_group sampleRep [0] (by decide)

/-- C4: when the input bit length D has D mod 11 in [1, 3], the encoder
emits D/11 full 11-bit main groups and pads the last D mod 11 real bits to
exactly 3 bits by appending 3 - (D mod 11) 1-valued bits, looking the padded
3-bit value up in the tail table instead of the main table. -/
theorem C4_tail_final_group (R : Repertoire) (b : List Nat)
    (h1 : 1 ≤ 8 * b.length % 11) (h3 : 8 * b.length % 11 ≤ 3) :
    encode R b
      = (List.range (8 * b.length / 11)).map
          (fun k => R.mainCodePoint
            (bitsToNat (((bytesToBits b).drop (11 * k)).take 11)))
        ++ [R.tailCodePoint
            (bitsToNat ((bytesToBits b).drop (11 * (8 * b.length / 11))
              ++ List.replicate (3 - 8 * b.length % 11) true))] := by
  have hlo := length_leftover b
  unfold encode
  rw [encodeGroups_unrolled b, List.map_append, List.map_map]
  congr 1
  have h0 : ¬ ((bytesToBits b).drop (11 * (8 * b.length / 11))).length = 0 := by
    omega
  have h3l : ((bytesToBits b).drop (11 * (8 * b.length / 11))).length ≤ 3 := by
    omega
  simp only [finalGroups, padTo, hlo]
  rw [if_neg (show ¬ 8 * b.length % 11 = 0 by omega),
    if_pos (show 8 * b.length % 11 ≤ 3 from h3)]
  rfl

theorem C4_tail_final_group_witness :
    encode sampleRep [255, 255, 255]
      = (List.range (8 * ([255, 255, 255] : List Nat).length / 11)).map
          (fun k => sampleRep.mainCodePoint
            (bitsToNat (((bytesToBits [255, 255, 255]).drop (11 * k)).take 11)))
        ++ [sampleRep.tailCodePoint
            (bitsToNat ((bytesToBits [255, 255, 255]).drop
                (11 * (8 * ([255, 255, 255] : List Nat).length / 11))
              ++ List.replicate
                  (3 - 8 * ([255, 255, 255] : List Nat).length % 11) true))] :=
  C4_tail_final_group sampleRep [255, 255, 255] (by decide) (by decide)

/-- C5: for input of D = 8·numBytes bits, the encoder output has
floor(D/11) + 1 code points when D mod 11 ∈ {1,2,3} and ceil(D/11) code
points otherwise; the tail table is used exactly once, only as the last
group, and only when D mod 11 ∈ {1,2,3} (otherwise never). -/
theorem C5_length_and_tail_usage (R : Repertoire) (b : List Nat) :
    ((encode R b).length
        = if 1 ≤ 8 * b.length % 11 ∧ 8 * b.length % 11 ≤ 3
          then 8 * b.length / 11 + 1
          else (8 * b.length + 10) / 11)
      ∧ ((encodeGroups (bytesToBits b)).countP isTail
          = if 1 ≤ 8 * b.length % 11 ∧ 8 * b.length % 11 ≤ 3 then 1 else 0)
      ∧ ∀ g ∈ (encodeGroups (bytesToBits b)).dropLast, isTail g = false := by
  have hlo := length_leftover b
  have hmain0 : ∀ g ∈ (List.range (8 * b.length / 11)).map
      (fun k => BitGroup.main (bitsToNat (((bytesToBits b).drop (11 * k)).take 11))),
      isTail g = false := by
    intro g hg
    simp only [List.mem_map, List.mem_range] at hg
    obtain ⟨k, _, hk⟩ := hg
    subst hk
    rfl
  have hcount0 : ((List.range (8 * b.length / 11)).map
      (fun k => BitGroup.main
        (bitsToNat (((bytesToBits b).drop (11 * k)).take 11)))).countP isTail
      = 0 := by
    rw [List.countP_eq_zero]
    intro g hg
    simp [hmain0 g hg]
  have hlen : (encode R b).length = (encodeGroups (bytesToBits b)).length := by
    unfold encode
    simp
  by_cases h0 : 8 * b.length % 11 = 0
  · have hnil : (bytesToBits b).drop (11 * (8 * b.length / 11)) = [] :=
      List.eq_nil_of_length_eq_zero (by omega)
    have hgr : encodeGroups (bytesToBits b)
        = (List.range (8 * b.length / 11)).map
          (fun k => BitGroup.main
            (bitsToNat (((bytesToBits b).drop (11 * k)).take 11))) := by
      rw [encodeGroups_unrolled b, hnil]
      simp [finalGroups]
    have hcond : ¬ (1 ≤ 8 * b.length % 11 ∧ 8 * b.length % 11 ≤ 3) := by omega
    refine ⟨?_, ?_, ?_⟩
    · rw [hlen, hgr, List.length_map, List.length_range, if_neg hcond]
      omega
    · rw [hgr, hcount0, if_neg hcond]
    · intro g hg
      rw [hgr] at hg
      exact hmain0 g ((List.dropLast_sublist _).subset hg)
  · by_cases h3 : 8 * b.length % 11 ≤ 3
    · have hF : finalGroups ((bytesToBits b).drop (11 * (8 * b.length / 11)))
          = [BitGroup.tail (bitsToNat
              (padTo 3 ((bytesToBits b).drop (11 * (8 * b.length / 11)))))] := by
        simp only [finalGroups]
        rw [if_neg (show
            ¬ ((bytesToBits b).drop (11 * (8 * b.length / 11))).length = 0 by omega),
          if_pos (show
            ((bytesToBits b).drop (11 * (8 * b.length / 11))).length ≤ 3 by omega)]
      have hcond : 1 ≤ 8 * b.length % 11 ∧ 8 * b.length % 11 ≤ 3 := by omega
      refine ⟨?_, ?_, ?_⟩
      · rw [hlen, encodeGroups_unrolled b, hF, List.length_append, List.length_map,
          List.length_range, if_pos hcond]
        simp
      · rw [encodeGroups_unrolled b, hF, List.countP_append, hcount0,
          if_pos hcond]
        rfl
      · intro g hg
        rw [encodeGroups_unrolled b, hF, List.dropLast_concat] at hg
        exact hmain0 g hg
    · have hF : finalGroups ((bytesToBits b).drop (11 * (8 * b.length / 11)))
          = [BitGroup.main (bitsToNat
              (padTo 11 ((bytesToBits b).drop (11 * (8 * b.length / 11)))))] := by
        simp only [finalGroups]
        rw [if_neg (show
            ¬ ((bytesToBits b).drop (11 * (8 * b.length / 11))).length = 0 by omega),
          if_neg (show
            ¬ ((bytesToBits b).drop (11 * (8 * b.length / 11))).length ≤ 3 by omega)]
      have hcond : ¬ (1 ≤ 8 * b.length % 11 ∧ 8 * b.length % 11 ≤ 3) := by omega
      refine ⟨?_, ?_, ?_⟩
      · rw [hlen, encodeGroups_unrolled b, hF, List.length_append, List.length_map,
          List.length_range, if_neg hcond]
        simp
        omega
      · rw [encodeGroups_unrolled b, hF, List.countP_append, hcount0,
          if_neg hcond]
        rfl
      · intro g hg
        rw [encodeGroups_unrolled b, hF, List.dropLast_concat] at hg
        exact hmain0 g hg

/-- C6: decode returns MalformedInput exactly when the reconstructed stripped
bit length (the L - r bits left after removing the last r = L mod 8 bits) is
not a multiple of 8; stripping L mod 8 bits always leaves a multiple of 8, so
this never occurs, and in particular decode of encoder output never raises
MalformedInput. -/
theorem C6_malformed_input (R : Repertoire) :
    (∀ s : List Nat,
      decode R s = Except.error DecodeError.MalformedInput
        ↔ ∃ bits : List Bool, decodeChars R s = Except.ok bits
            ∧ ¬ (bits.take (bits.length - bits.length % 8)).length % 8 = 0)
    ∧ ∀ b : List Nat,
        decode R (encode R b) ≠ Except.error DecodeError.MalformedInput := by
  have hstrip : ∀ bits : List Bool,
      (bits.take (bits.length - bits.length % 8)).length % 8 = 0 := by
    intro bits
    simp only [List.length_take]
    omega
  have hmain : ∀ s : List Nat,
      decode R s ≠ Except.error DecodeError.MalformedInput := by
    intro s
    unfold decode
    cases hc : decodeChars R s with
    | error e =>
      have he := decodeChars_error_invalid R s e hc
      subst he
      simp
    | ok bits =>
      dsimp only
      rw [if_pos (hstrip bits)]
      simp
  constructor
  · intro s
    constructor
    · intro h
      exact absurd h (hmain s)
    · rintro ⟨bits, hbits, hmod⟩
      exact absurd (hstrip bits) hmod
  · intro b
    exact hmain (encode R b)

/-- C7: decode fails with InvalidCharacter when some code point of the input
is absent from both the main and the tail table; the failure is surfaced as
the call's result, with no partial output buffer returned. -/
theorem C7_invalid_character (R : Repertoire) (s : List Nat) (c : Nat)
    (hc : c ∈ s) (hm : R.mainIndex c = none) (ht : R.tailIndex c = none) :
    decode R s = Except.error DecodeError.InvalidCharacter := by
  have hchars : decodeChars R s = Except.error DecodeError.InvalidCharacter := by
    induction s with
    | nil => simp at hc
    | cons a rest ih =>
      simp only [decodeChars]
      cases hma : R.mainIndex a with
      | some i =>
        have hne : c ≠ a := by
          intro he
          subst he
          rw [hm] at hma
          exact Option.noConfusion hma
        have hcr : c ∈ rest := by
          rcases List.mem_cons.mp hc with he | hcr
          · exact absurd he hne
          · exact hcr
        rw [ih hcr]
      | none =>
        cases hta : R.tailIndex a with
        | some i =>
          have hne : c ≠ a := by
            intro he
            subst he
            rw [ht] at hta
            exact Option.noConfusion hta
          have hcr : c ∈ rest := by
            rcases List.mem_cons.mp hc with he | hcr
            · exact absurd he hne
            · exact hcr
          rw [ih hcr]
        | none => rfl
  unfold decode
  rw [hchars]

theorem C7_invalid_character_witness :
    decode sampleRep [9999] = Except.error DecodeError.InvalidCharacter :=
  C7_invalid_character sampleRep [9999] 9999 (by decide) (by decide) (by decide)

/-- The number of padding bits encode introduces for buffer b: the length of
the reconstructed group bit stream minus the input bit length. -/
def paddingCount (b : List Nat) : Nat :=
  (groupsToBits (encodeGroups (bytesToBits b))).length - 8 * b.length

/-- C8: encode introduces between 0 and 7 padding bits for every buffer:
0 when the bit length is an exact multiple of 11, at most 2 when the final
group is padded to 3 bits, and at most 7 when it is padded to 11 bits. -/
theorem C8_padding_bound (b : List Nat) :
    paddingCount b ≤ 7
      ∧ (8 * b.length % 11 = 0 → paddingCount b = 0)
      ∧ (1 ≤ 8 * b.length % 11 → 8 * b.length % 11 ≤ 3 → paddingCount b ≤ 2)
      ∧ (4 ≤ 8 * b.length % 11 → paddingCount b ≤ 7) := by
  have hpc : paddingCount b = padOf (8 * b.length % 11) := by
    unfold paddingCount encodeGroups
    rw [groupsToBits_encodeGroupsAux _ _ rfl, length_bytesToBits]
    simp [length_bytesToBits]
  rw [hpc]
  refine ⟨padOf_le_seven _, ?_, ?_, fun _ => padOf_le_seven _⟩
  · intro h0
    simp [padOf, h0]
  · intro h1 h3
    have h0 : ¬ 8 * b.length % 11 = 0 := by omega
    simp only [padOf, if_neg h0, if_pos h3]
    omega

end Base2048
